import Mathlib

/-
Verification of the NegPy rendering pipeline in a shallow embedding.
Machine floats of the Python/numpy code are modelled by exact real
numbers (or rationals where the code is purely rational arithmetic).
-/

namespace NegPy

/-- Branchless clamp used throughout the kernels: the pattern
if v < lo then lo elif v > hi then hi else v, which also models
np.clip for lo <= hi. -/
def clip {α : Type} [LinearOrder α] (lo hi x : α) : α :=
  if x < lo then lo else if x > hi then hi else x

theorem clip_mem {α : Type} [LinearOrder α] (lo hi x : α) (h : lo ≤ hi) :
    lo ≤ clip lo hi x ∧ clip lo hi x ≤ hi := by
  unfold clip
  split_ifs with h1 h2
  · exact ⟨le_refl lo, h⟩
  · exact ⟨h, le_refl hi⟩
  · exact ⟨le_of_not_lt h1, le_of_not_lt h2⟩

theorem clip_mono (lo hi : ℝ) (h : lo ≤ hi) {x y : ℝ} (hxy : x ≤ y) :
    clip lo hi x ≤ clip lo hi y := by
  unfold clip
  split_ifs <;> linarith

/-!
CMY slider and density conversions, from negpy/features/exposure/logic.py.
EXPOSURE_CONSTANTS cmy_max_density = 0.2 (negpy/features/exposure/models.py).
-/

/-- Constant EXPOSURE_CONSTANTS cmy_max_density. -/
def cmyMaxDensity : ℝ := 0.2

/-- Converts a CMY slider value to a physical density shift:
absolute_density = val * cmy_max_density; result = absolute_density / max(log_range, 1e-6). -/
noncomputable def cmy_to_density (val logRange : ℝ) : ℝ :=
  val * cmyMaxDensity / max logRange 1e-6

/-- Converts a density shift back to a slider value:
absolute_density = density * log_range; result = absolute_density / cmy_max_density. -/
noncomputable def density_to_cmy (density logRange : ℝ) : ℝ :=
  density * logRange / cmyMaxDensity

/-- C10: the CMY slider/density conversions are mutually inverse whenever the
log range is at least the 1e-6 guard: density_to_cmy (cmy_to_density v r) r = v
and cmy_to_density (density_to_cmy d r) r = d. -/
theorem C10_cmy_density_roundtrip (v d r : ℝ) (hr : (1e-6 : ℝ) ≤ r) :
    density_to_cmy (cmy_to_density v r) r = v ∧
    cmy_to_density (density_to_cmy d r) r = d := by
  have hmax : max r (1e-6 : ℝ) = r := max_eq_left hr
  have hrpos : (0 : ℝ) < r := lt_of_lt_of_le (by norm_num) hr
  have hrne : r ≠ 0 := ne_of_gt hrpos
  have hcne : cmyMaxDensity ≠ 0 := by unfold cmyMaxDensity; norm_num
  constructor
  · unfold density_to_cmy cmy_to_density
    rw [hmax]
    field_simp
  · unfold density_to_cmy cmy_to_density
    rw [hmax]
    field_simp

/-- C10 witness: concrete instance at v = 3, d = 5, r = 1. -/
theorem C10_cmy_density_roundtrip_witness :
    ((1e-6 : ℝ) ≤ 1) ∧
    (density_to_cmy (cmy_to_density 3 1) 1 = 3 ∧
     cmy_to_density (density_to_cmy 5 1) 1 = 5) :=
  ⟨by norm_num, C10_cmy_density_roundtrip 3 5 1 (by norm_num)⟩

/-!
Logistic sigmoid, from negpy/features/exposure/logic.py.
-/

/-- Reference logistic sigmoid _expit: 1 / (1 + exp(-x)). -/
noncomputable def expit (x : ℝ) : ℝ := 1 / (1 + Real.exp (-x))

/-- Branched numerically stable sigmoid _fast_sigmoid:
for x >= 0 it is 1/(1+exp(-x)), otherwise exp(x)/(1+exp(x)). -/
noncomputable def fastSigmoid (x : ℝ) : ℝ :=
  if 0 ≤ x then 1 / (1 + Real.exp (-x)) else Real.exp x / (1 + Real.exp x)

theorem fastSigmoid_eq_expit (x : ℝ) : fastSigmoid x = expit x := by
  unfold fastSigmoid expit
  split_ifs with h
  · rfl
  · have hx : (0 : ℝ) < Real.exp x := Real.exp_pos x
    have hnx : (0 : ℝ) < Real.exp (-x) := Real.exp_pos (-x)
    have h1 : (0 : ℝ) < 1 + Real.exp x := by linarith
    have h2 : (0 : ℝ) < 1 + Real.exp (-x) := by linarith
    rw [div_eq_div_iff h1.ne' h2.ne']
    have : Real.exp x * Real.exp (-x) = 1 := by
      rw [← Real.exp_add]
      simp
    ring_nf
    nlinarith [this]

/-- C9: the branched stable sigmoid agrees with the reference logistic
function everywhere in exact real arithmetic. -/
theorem C9_fast_sigmoid_eq_expit : ∀ x : ℝ, fastSigmoid x = expit x :=
  fastSigmoid_eq_expit

/-!
Fused photometric kernel _apply_photometric_fused_kernel from
negpy/features/exposure/logic.py, per pixel and channel. Real powers with
real exponents model the numpy float ** operator.
-/

/-- Adjusted log-exposure difference diff_adj of the fused kernel:
val = img + cmy_offset, diff = val - pivot, gaussian shadow/highlight masks
centred at (1 - pivot) * 0.9 and (0 - pivot) * 0.9, then
diff + color offsets - density offsets. -/
noncomputable def diffAdjOf (imgVal cmyOffset pivot shadows highlights
    shadowCmy highlightCmy : ℝ) : ℝ :=
  let val := imgVal + cmyOffset
  let diff := val - pivot
  let sCenter := (1 - pivot) * 0.9
  let hCenter := (0 - pivot) * 0.9
  let sMask := Real.exp (-((diff - sCenter) ^ 2) / 0.15)
  let shadowDensityOffset := shadows * sMask * 0.3
  let shadowColorOffset := shadowCmy * sMask
  let hMask := Real.exp (-((diff - hCenter) ^ 2) / 0.15)
  let highlightDensityOffset := highlights * hMask * 0.3
  let highlightColorOffset := highlightCmy * hMask
  diff + shadowColorOffset + highlightColorOffset - shadowDensityOffset -
    highlightDensityOffset

/-- Combined slope multiplier k_mod of the fused kernel: one minus the toe
damping minus the shoulder damping, clamped to the interval from 0.1 to 2.0
by the if chain of the kernel (the clip pattern). -/
noncomputable def kModOf (diffAdj pivot toe toeWidth toeHardness shoulder
    shoulderWidth shoulderHardness : ℝ) : ℝ :=
  let epsilon : ℝ := 1e-6
  let swVal := shoulderWidth * (diffAdj / max pivot epsilon)
  let wS := fastSigmoid swVal
  let protS := (4 * ((wS - 0.5) ^ 2)) ^ shoulderHardness
  let dampShoulder := shoulder * (1 - wS) * protS
  let twVal := toeWidth * (diffAdj / max (1 - pivot) epsilon)
  let wT := fastSigmoid twVal
  let protT := (4 * ((wT - 0.5) ^ 2)) ^ toeHardness
  let dampToe := toe * wT * protT
  clip 0.1 2.0 (1 - dampToe - dampShoulder)

/-- Per-pixel body of _apply_photometric_fused_kernel:
density = d_max * sigmoid(slope * diff_adj * k_mod), transmittance = 10^-density,
final value = transmittance^(1/gamma) clamped to the unit interval. -/
noncomputable def photometricPixel (imgVal cmyOffset pivot slope toe toeWidth
    toeHardness shoulder shoulderWidth shoulderHardness shadows highlights
    shadowCmy highlightCmy dMax gamma : ℝ) : ℝ :=
  let diffAdj := diffAdjOf imgVal cmyOffset pivot shadows highlights
    shadowCmy highlightCmy
  let kMod := kModOf diffAdj pivot toe toeWidth toeHardness shoulder
    shoulderWidth shoulderHardness
  let density := dMax * fastSigmoid (slope * diffAdj * kMod)
  let transmittance := (10 : ℝ) ^ (-density)
  let invGamma := 1 / gamma
  clip 0 1 (transmittance ^ invGamma)

/-- Per-channel pivot computed by PhotometricProcessor.process:
master_ref - (0.1 + density * density_multiplier), with master_ref = 1.0 and
EXPOSURE_CONSTANTS density_multiplier = 0.2. -/
def pivotOf (density : ℝ) : ℝ := 1.0 - (0.1 + density * 0.2)

/-- Per-channel slope computed by PhotometricProcessor.process:
1.0 + grade * grade_multiplier, with EXPOSURE_CONSTANTS grade_multiplier = 2.0. -/
def slopeOf (grade : ℝ) : ℝ := 1.0 + grade * 2.0

/-- Modelled from the spec: the documented output formula of the Photometric
stage, clamp((10^(-dMax * sigmoid(slope * adjustedDiff * dampedSlope)))^(1/2.2), 0, 1),
written with the reference sigmoid. -/
noncomputable def photometricSpecOutput (slope adjustedDiff dampedSlope
    dMax gamma : ℝ) : ℝ :=
  clip 0 1 (((10 : ℝ) ^ (-(dMax * expit (slope * adjustedDiff * dampedSlope)))) ^
    (1 / gamma))

/-- C4: for every parameter combination and every input, the combined slope
multiplier k_mod of the characteristic-curve kernel lies within the interval
from 0.1 to 2.0 after clamping. -/
theorem C4_k_mod_bounded (diffAdj pivot toe toeWidth toeHardness shoulder
    shoulderWidth shoulderHardness : ℝ) :
    0.1 ≤ kModOf diffAdj pivot toe toeWidth toeHardness shoulder
      shoulderWidth shoulderHardness ∧
    kModOf diffAdj pivot toe toeWidth toeHardness shoulder
      shoulderWidth shoulderHardness ≤ 2.0 := by
  unfold kModOf
  exact clip_mem 0.1 2.0 _ (by norm_num)

/-- C3: with the processor pivots and slopes (masterRef = 1.0, dMax = 4.0,
gamma = 2.2), the fused kernel computes exactly the documented formula
clamp((10^(-dMax * sigmoid(slope * adjustedDiff * dampedSlope)))^(1/2.2), 0, 1),
where adjustedDiff is the adjusted difference against the pivot
masterRef - (0.1 + density * densityGain) and the slope is 1 + grade * gradeGain. -/
theorem C3_photometric_formula (imgVal density grade toe toeWidth toeHardness
    shoulder shoulderWidth shoulderHardness shadows highlights cmyOffset
    shadowCmy highlightCmy : ℝ) :
    photometricPixel imgVal cmyOffset (pivotOf density) (slopeOf grade) toe
        toeWidth toeHardness shoulder shoulderWidth shoulderHardness shadows
        highlights shadowCmy highlightCmy 4.0 2.2 =
      photometricSpecOutput (slopeOf grade)
        (diffAdjOf imgVal cmyOffset (pivotOf density) shadows highlights
          shadowCmy highlightCmy)
        (kModOf (diffAdjOf imgVal cmyOffset (pivotOf density) shadows highlights
            shadowCmy highlightCmy)
          (pivotOf density) toe toeWidth toeHardness shoulder shoulderWidth
          shoulderHardness)
        4.0 2.2 ∧
    pivotOf density = 1 - (0.1 + density * 0.2) ∧
    slopeOf grade = 1 + grade * 2.0 := by
  refine ⟨?_, by norm_num [pivotOf], by norm_num [slopeOf]⟩
  simp only [photometricPixel, photometricSpecOutput, fastSigmoid_eq_expit]

/-!
Log normalization, from negpy/features/exposure/normalization.py.
-/

/-- Log density of a linear input as computed before normalization:
log10(clip(x, 1e-6, 1.0)). -/
noncomputable def densityOf (x : ℝ) : ℝ := Real.logb 10 (clip 1e-6 1 x)

/-- Guarded denominator of _normalize_log_image_jit: delta = ceil - floor,
replaced by a signed epsilon when |delta| < 1e-6. -/
noncomputable def normDenom (f c : ℝ) : ℝ :=
  let delta := c - f
  if |delta| < 1e-6 then (if 0 ≤ delta then 1e-6 else -1e-6) else delta

/-- Per-pixel, per-channel body of _normalize_log_image_jit:
norm = (d - floor) / denom, then clamped below by 0 and above by 1. -/
noncomputable def normalizePixel (d f c : ℝ) : ℝ :=
  clip 0 1 ((d - f) / normDenom f c)

/-- Container LogNegativeBounds of per-channel floors and ceils. -/
structure LogNegativeBounds where
  floors : ℝ × ℝ × ℝ
  ceils : ℝ × ℝ × ℝ

/-- Whole-buffer normalize_log_image: every pixel of the buffer is mapped
channelwise through normalizePixel with that channel bounds. -/
noncomputable def normalize_log_image (img : List (ℝ × ℝ × ℝ))
    (b : LogNegativeBounds) : List (ℝ × ℝ × ℝ) :=
  img.map fun p =>
    (normalizePixel p.1 b.floors.1 b.ceils.1,
     normalizePixel p.2.1 b.floors.2.1 b.ceils.2.1,
     normalizePixel p.2.2 b.floors.2.2 b.ceils.2.2)

theorem normDenom_pos {f c : ℝ} (h : f < c) : 0 < normDenom f c := by
  simp only [normDenom]
  have hd : (0 : ℝ) < c - f := by linarith
  split_ifs with h1 h2
  · norm_num
  · exact absurd (le_of_lt hd) h2
  · exact hd

/-- C2: for every floor/ceil pair with ceil > floor, the normalization map is
clip((d - floor)/(ceil - floor), 0, 1) whenever the span is not below the
1e-6 guard, and its composition with the log-density map is monotone
increasing in the linear input. -/
theorem C2_normalize_monotone (f c : ℝ) (h : f < c) :
    (∀ d : ℝ, ¬ |c - f| < 1e-6 →
      normalizePixel d f c = clip 0 1 ((d - f) / (c - f))) ∧
    (∀ x1 x2 : ℝ, x1 ≤ x2 →
      normalizePixel (densityOf x1) f c ≤ normalizePixel (densityOf x2) f c) := by
  constructor
  · intro d hspan
    unfold normalizePixel
    simp only [normDenom]
    rw [if_neg hspan]
  · intro x1 x2 hx
    have hden : 0 < normDenom f c := normDenom_pos h
    have hdens : densityOf x1 ≤ densityOf x2 := by
      unfold densityOf
      have hclip1 : (1e-6 : ℝ) ≤ clip 1e-6 1 x1 :=
        (clip_mem (1e-6 : ℝ) 1 x1 (by norm_num)).1
      have hpos : (0 : ℝ) < clip 1e-6 1 x1 :=
        lt_of_lt_of_le (by norm_num) hclip1
      exact Real.logb_le_logb_of_le (by norm_num) hpos
        (clip_mono (1e-6 : ℝ) 1 (by norm_num) hx)
    apply clip_mono 0 1 (by norm_num)
    exact (div_le_div_iff_of_pos_right hden).mpr (by linarith)

/-- C2 witness: bounds floor = 0, ceil = 1 and inputs 0 and 1. -/
theorem C2_normalize_monotone_witness :
    (0 : ℝ) < 1 ∧
    normalizePixel (densityOf 0) 0 1 ≤ normalizePixel (densityOf 1) 0 1 :=
  ⟨by norm_num, (C2_normalize_monotone 0 1 (by norm_num)).2 0 1 (by norm_num)⟩

/-- C5: the normalization kernel is total on every buffer and every bounds
pair, including a zero span: the guarded denominator is never zero and every
produced channel value lies in the unit interval. -/
theorem C5_normalize_total (img : List (ℝ × ℝ × ℝ)) (b : LogNegativeBounds) :
    (∀ f c : ℝ, normDenom f c ≠ 0) ∧
    (∀ p, p ∈ normalize_log_image img b →
      (0 ≤ p.1 ∧ p.1 ≤ 1) ∧ (0 ≤ p.2.1 ∧ p.2.1 ≤ 1) ∧
      (0 ≤ p.2.2 ∧ p.2.2 ≤ 1)) := by
  constructor
  · intro f c
    simp only [normDenom]
    split_ifs with h1 h2
    · norm_num
    · norm_num
    · intro hzero
      rw [hzero] at h1
      simp at h1
      norm_num at h1
  · intro p hp
    unfold normalize_log_image at hp
    rw [List.mem_map] at hp
    obtain ⟨q, _, hq⟩ := hp
    subst hq
    refine ⟨?_, ?_, ?_⟩ <;>
      exact clip_mem 0 1 _ (by norm_num)

/-- C5 witness: a one-pixel buffer with degenerate bounds floor = ceil = 0. -/
theorem C5_normalize_total_witness :
    ((normalizePixel 2 0 0, normalizePixel 2 0 0, normalizePixel 2 0 0) ∈
      normalize_log_image [(2, 2, 2)] ⟨(0, 0, 0), (0, 0, 0)⟩) ∧
    (0 ≤ normalizePixel 2 0 0 ∧ normalizePixel 2 0 0 ≤ 1) :=
  ⟨by simp [normalize_log_image],
   ((C5_normalize_total [(2, 2, 2)] ⟨(0, 0, 0), (0, 0, 0)⟩).2
      (normalizePixel 2 0 0, normalizePixel 2 0 0, normalizePixel 2 0 0)
      (by simp [normalize_log_image])).1⟩

/-!
Spectral crosstalk, from negpy/features/lab/logic.py. Matrices are 3x3
rational entries indexed by Fin 3; a pixel is an RGB triple.
-/

/-- Blend of the identity matrix with the calibration matrix:
identity * (1 - strength) + calibration * strength, entrywise. -/
def blendMatrix (strength : ℚ) (cal : Fin 3 → Fin 3 → ℚ) :
    Fin 3 → Fin 3 → ℚ :=
  fun i j => (if i = j then (1 : ℚ) else 0) * (1 - strength) + cal i j * strength

/-- Sum of one matrix row, np.sum over axis 1. -/
def rowSum (m : Fin 3 → Fin 3 → ℚ) (i : Fin 3) : ℚ := m i 0 + m i 1 + m i 2

/-- Row normalization: each entry divided by max(row sum, 1e-6). -/
def normalizeRows (m : Fin 3 → Fin 3 → ℚ) : Fin 3 → Fin 3 → ℚ :=
  fun i j => m i j / max (rowSum m i) (1 / 1000000)

/-- Matrix actually applied by apply_spectral_crosstalk: the blended matrix
after row normalization. -/
def appliedMatrixOf (strength : ℚ) (cal : Fin 3 → Fin 3 → ℚ) :
    Fin 3 → Fin 3 → ℚ :=
  normalizeRows (blendMatrix strength cal)

/-- Per-pixel 3x3 matrix multiplication of _apply_spectral_crosstalk_jit. -/
def matVec (m : Fin 3 → Fin 3 → ℚ) (p : ℚ × ℚ × ℚ) : ℚ × ℚ × ℚ :=
  (p.1 * m 0 0 + p.2.1 * m 0 1 + p.2.2 * m 0 2,
   p.1 * m 1 0 + p.2.1 * m 1 1 + p.2.2 * m 1 2,
   p.1 * m 2 0 + p.2.1 * m 2 1 + p.2.2 * m 2 2)

/-- Function apply_spectral_crosstalk on one pixel: returns the pixel
unchanged when strength is zero or no matrix is supplied, otherwise
multiplies by the blended, row-normalized matrix. -/
def apply_spectral_crosstalk (pixel : ℚ × ℚ × ℚ) (strength : ℚ)
    (matrix : Option (Fin 3 → Fin 3 → ℚ)) : ℚ × ℚ × ℚ :=
  match matrix with
  | none => pixel
  | some cal =>
      if strength = 0 then pixel
      else matVec (appliedMatrixOf strength cal) pixel

/-- C8: for nonzero strength and a supplied calibration matrix the applied
matrix is the row-normalized blend and each of its rows sums to one whenever
the blended row sum is at least the 1e-6 guard; zero strength or an absent
matrix leaves the pixel unchanged. -/
theorem C8_crosstalk_rows (pixel : ℚ × ℚ × ℚ) (strength : ℚ)
    (cal : Fin 3 → Fin 3 → ℚ) (i : Fin 3) :
    (strength ≠ 0 → (1 / 1000000 : ℚ) ≤ rowSum (blendMatrix strength cal) i →
      rowSum (appliedMatrixOf strength cal) i = 1) ∧
    (∀ m, apply_spectral_crosstalk pixel 0 m = pixel) ∧
    (apply_spectral_crosstalk pixel strength none = pixel) ∧
    (strength ≠ 0 → apply_spectral_crosstalk pixel strength (some cal) =
      matVec (appliedMatrixOf strength cal) pixel) := by
  refine ⟨?_, ?_, rfl, ?_⟩
  · intro _ hguard
    have hpos : (0 : ℚ) < rowSum (blendMatrix strength cal) i :=
      lt_of_lt_of_le (by norm_num) hguard
    have hmax : max (rowSum (blendMatrix strength cal) i) (1 / 1000000 : ℚ) =
        rowSum (blendMatrix strength cal) i := max_eq_left hguard
    unfold appliedMatrixOf
    show normalizeRows (blendMatrix strength cal) i 0 +
        normalizeRows (blendMatrix strength cal) i 1 +
        normalizeRows (blendMatrix strength cal) i 2 = 1
    unfold normalizeRows
    rw [hmax, div_add_div_same, div_add_div_same]
    exact div_self (ne_of_gt hpos)
  · intro m
    cases m with
    | none => rfl
    | some cal2 => simp [apply_spectral_crosstalk]
  · intro hs
    simp [apply_spectral_crosstalk, hs]

/-- C8 witness: identity calibration matrix at strength one half, first row. -/
theorem C8_crosstalk_rows_witness :
    ((1 : ℚ) / 2 ≠ 0) ∧
    ((1 / 1000000 : ℚ) ≤
      rowSum (blendMatrix (1 / 2) (fun i j => if i = j then 1 else 0)) 0) ∧
    rowSum (appliedMatrixOf (1 / 2) (fun i j => if i = j then 1 else 0)) 0 = 1 :=
  ⟨by norm_num, by simp [rowSum, blendMatrix]; norm_num,
   (C8_crosstalk_rows (0, 0, 0) (1 / 2) (fun i j => if i = j then 1 else 0) 0).1
     (by norm_num) (by simp [rowSum, blendMatrix]; norm_num)⟩

/-!
Render request state machine of the desktop AppController, from
negpy/desktop/controller.py. A render task is abstracted by a natural
number id; the second component of a step is the task emitted on the
render_requested signal, if any.
-/

/-- Mutable controller fields relevant to the render path:
the _is_rendering flag and the single _pending_render_task slot. -/
structure RenderCtl where
  isRendering : Bool
  pending : Option ℕ
deriving DecidableEq

/-- Events hitting the render path: request_render, _on_render_finished and
_on_render_error. -/
inductive RenderEvent where
  | request : ℕ → RenderEvent
  | finish : RenderEvent
  | error : RenderEvent

/-- One controller step. request_render while rendering only stores the task
in the pending slot; otherwise it sets the flag and emits. _on_render_finished
clears the flag, then dispatches the pending task if one is stored.
_on_render_error clears both the flag and the pending slot. -/
def renderStep (s : RenderCtl) : RenderEvent → RenderCtl × Option ℕ
  | .request t =>
      if s.isRendering then ({ s with pending := some t }, none)
      else ({ s with isRendering := true }, some t)
  | .finish =>
      match s.pending with
      | some t => (⟨true, none⟩, some t)
      | none => (⟨false, none⟩, none)
  | .error => (⟨false, none⟩, none)

/-- Number of renders in flight after one event, given the count before it:
an emission starts one, finish and error events end the current one. -/
def stepInflight (s : RenderCtl) (fl : ℕ) : RenderEvent → ℕ
  | .request _ => if s.isRendering then fl else fl + 1
  | .finish => (fl - 1) + (if s.pending.isSome then 1 else 0)
  | .error => fl - 1

/-- Run of the controller over an event trace, tracking the in-flight count. -/
def renderTrace (s : RenderCtl) (fl : ℕ) : List RenderEvent → RenderCtl × ℕ
  | [] => (s, fl)
  | e :: rest => renderTrace (renderStep s e).1 (stepInflight s fl e) rest

theorem renderTrace_invariant (es : List RenderEvent) :
    ∀ (s : RenderCtl) (fl : ℕ), fl = (if s.isRendering then 1 else 0) →
      (renderTrace s fl es).2 =
        (if ((renderTrace s fl es).1).isRendering then 1 else 0) := by
  induction es with
  | nil => intro s fl h; simpa [renderTrace] using h
  | cons e rest ih =>
      intro s fl h
      show (renderTrace (renderStep s e).1 (stepInflight s fl e) rest).2 = _
      apply ih
      cases e with
      | request t =>
          by_cases hr : s.isRendering <;>
            simp [renderStep, stepInflight, hr, h]
      | finish =>
          cases hp : s.pending with
          | some t =>
              by_cases hr : s.isRendering <;>
                simp [renderStep, stepInflight, hp, hr, h]
          | none =>
              by_cases hr : s.isRendering <;>
                simp [renderStep, stepInflight, hp, hr, h]
      | error =>
          by_cases hr : s.isRendering <;>
            simp [renderStep, stepInflight, hr, h]

/-- C7: render requests are non-reentrant. A request arriving while a render
is in flight emits nothing and only overwrites the single pending slot; a
finish dispatches exactly the most recently stored pending task; and along
every event trace started with a consistent in-flight count, at most one
render is in flight at a time. -/
theorem C7_render_state_machine :
    (∀ (s : RenderCtl) (t : ℕ), s.isRendering = true →
      renderStep s (.request t) = ({ s with pending := some t }, none)) ∧
    (∀ (s : RenderCtl) (t : ℕ), s.pending = some t →
      renderStep s .finish = (⟨true, none⟩, some t)) ∧
    (∀ (es : List RenderEvent) (s : RenderCtl) (fl : ℕ),
      fl = (if s.isRendering then 1 else 0) →
      (renderTrace s fl es).2 ≤ 1) := by
  refine ⟨?_, ?_, ?_⟩
  · intro s t hr
    simp [renderStep, hr]
  · intro s t hp
    simp [renderStep, hp]
  · intro es s fl h
    rw [renderTrace_invariant es s fl h]
    split_ifs <;> norm_num

/-- C7 witness: a request arriving during a render (with an older pending
task stored) emits nothing and replaces the pending slot. -/
theorem C7_render_state_machine_witness :
    (RenderCtl.mk true (some 3)).isRendering = true ∧
    renderStep ⟨true, some 3⟩ (.request 7) = (⟨true, some 7⟩, none) :=
  ⟨rfl, C7_render_state_machine.1 ⟨true, some 3⟩ 7 rfl⟩

/-!
CPU engine stage cache, DarkroomEngine of src/services/rendering/engine.py.
Sub-configs are represented by their calculate_config_hash fingerprints
(natural numbers), since the engine only ever compares fingerprints; image
buffers are abstracted as naturals and the stage processors as functions on
them. The context and metrics threading is elided: the claim concerns stage
re-execution and cache state only.
-/

/-- Modelled from the spec: CacheEntry of the missing caching module,
(configHash, outputBuffer) per stage; the context metrics snapshot and ROI
components are elided. -/
structure CacheEntry where
  config_hash : ℕ
  data : ℕ
deriving DecidableEq

/-- Modelled from the spec: PipelineCache of the missing caching module,
one entry slot per cached stage plus the owning source identity. -/
structure PipelineCache where
  source_hash : Option ℕ
  base : Option CacheEntry
  exposure : Option CacheEntry
  retouch : Option CacheEntry
  lab : Option CacheEntry
deriving DecidableEq

/-- Modelled from the spec: cache clear, invalidating every stage slot
wholesale. -/
def PipelineCache.clear (c : PipelineCache) : PipelineCache :=
  { c with base := none, exposure := none, retouch := none, lab := none }

/-- DarkroomEngine _run_stage: reuse the cached output only when the incoming
pipeline_changed flag is false, a cached entry exists and its stored
fingerprint equals the fingerprint of the current sub-config; otherwise run
the processor and store a fresh entry. Returns the image, the outgoing
pipeline_changed flag (true exactly when the stage executed) and the entry
to be stored in the stage slot. -/
def runStage (img confHash : ℕ) (cached : Option CacheEntry)
    (proc : ℕ → ℕ) (pipelineChanged : Bool) : ℕ × Bool × CacheEntry :=
  match cached with
  | some entry =>
      if pipelineChanged = false ∧ entry.config_hash = confHash then
        (entry.data, false, entry)
      else
        let newImg := proc img
        (newImg, true, ⟨confHash, newImg⟩)
  | none =>
      let newImg := proc img
      (newImg, true, ⟨confHash, newImg⟩)

/-- Per-stage sub-configs of WorkspaceConfig, each represented by its
fingerprint. -/
structure WorkspaceConfig where
  geometry : ℕ
  exposure : ℕ
  retouch : ℕ
  lab : ℕ
  toning : ℕ
deriving DecidableEq

/-- Stage processor functions of the engine run (geometry+normalization
fused as the base stage, then exposure, retouch, lab, and the always-run
toning and crop processors). -/
structure StageProcs where
  base : ℕ → ℕ
  exposure : ℕ → ℕ
  retouch : ℕ → ℕ
  lab : ℕ → ℕ
  toning : ℕ → ℕ
  crop : ℕ → ℕ

/-- DarkroomEngine.process: clear the cache and mark the pipeline changed
when the source identity differs from the stored one, then run the four
cached stages in order threading the image and the pipeline_changed flag,
and finally the uncached toning and crop stages. Returns the final image,
the new cache, and the executed flags of the four cached stages in order. -/
def process (p : StageProcs) (cache0 : PipelineCache) (img : ℕ)
    (settings : WorkspaceConfig) (sourceHash : ℕ) :
    ℕ × PipelineCache × (Bool × Bool × Bool × Bool) :=
  let start :=
    if cache0.source_hash ≠ some sourceHash then
      ({ cache0.clear with source_hash := some sourceHash }, true)
    else (cache0, false)
  let cache1 := start.1
  let r1 := runStage img settings.geometry cache1.base p.base start.2
  let cache2 := { cache1 with base := some r1.2.2 }
  let r2 := runStage r1.1 settings.exposure cache2.exposure p.exposure r1.2.1
  let cache3 := { cache2 with exposure := some r2.2.2 }
  let r3 := runStage r2.1 settings.retouch cache3.retouch p.retouch r2.2.1
  let cache4 := { cache3 with retouch := some r3.2.2 }
  let r4 := runStage r3.1 settings.lab cache4.lab p.lab r3.2.1
  let cache5 := { cache4 with lab := some r4.2.2 }
  let imgToned := p.toning r4.1
  let imgFinal := p.crop imgToned
  (imgFinal, cache5, (r1.2.1, r2.2.1, r3.2.1, r4.2.1))

theorem runStage_true (img confHash : ℕ) (cached : Option CacheEntry)
    (proc : ℕ → ℕ) : (runStage img confHash cached proc true).2.1 = true := by
  cases cached with
  | none => rfl
  | some entry => simp [runStage]

/-- C1: stage cache invariants of the CPU engine. A cached output is reused
only when the incoming invalidation flag is false and the stored fingerprint
matches; an already-set flag forces execution; the flag propagates
monotonically through the four cached stages of a render; a differing source
identity forces every stage to run; and after a warm run, changing only the
retouch sub-config re-executes exactly the retouch and lab cached stages
(toning and layout always run) while base geometry/normalization and
exposure reuse their caches. -/
theorem C1_stage_cache (pr : StageProcs) :
    (∀ img confHash cached proc pc,
      (runStage img confHash cached proc pc).2.1 = false →
      pc = false ∧ ∃ e, cached = some e ∧ e.config_hash = confHash) ∧
    (∀ img confHash cached proc,
      (runStage img confHash cached proc true).2.1 = true) ∧
    (∀ c0 img st s,
      ((process pr c0 img st s).2.2.1 = true →
        (process pr c0 img st s).2.2.2.1 = true) ∧
      ((process pr c0 img st s).2.2.2.1 = true →
        (process pr c0 img st s).2.2.2.2.1 = true) ∧
      ((process pr c0 img st s).2.2.2.2.1 = true →
        (process pr c0 img st s).2.2.2.2.2 = true)) ∧
    (∀ c0 img st s, c0.source_hash ≠ some s →
      (process pr c0 img st s).2.2 = (true, true, true, true)) ∧
    (∀ c0 img img2 st st2 s, c0.source_hash ≠ some s →
      st2.geometry = st.geometry → st2.exposure = st.exposure →
      st2.lab = st.lab → st2.retouch ≠ st.retouch →
      (process pr (process pr c0 img st s).2.1 img2 st2 s).2.2 =
        (false, false, true, true)) := by
  refine ⟨?_, ?_, ?_, ?_, ?_⟩
  · intro img confHash cached proc pc hfalse
    cases cached with
    | none => simp [runStage] at hfalse
    | some entry =>
        by_cases hc : pc = false ∧ entry.config_hash = confHash
        · exact ⟨hc.1, entry, rfl, hc.2⟩
        · simp only [runStage, if_neg hc] at hfalse
          exact absurd hfalse (by simp)
  · exact fun img confHash cached proc => runStage_true img confHash cached proc
  · intro c0 img st s
    refine ⟨?_, ?_, ?_⟩ <;>
      · simp only [process]
        intro h
        rw [h]
        exact runStage_true _ _ _ _
  · intro c0 img st s h
    simp [process, PipelineCache.clear, runStage, h]
  · intro c0 img img2 st st2 s h hg he hl hne
    simp [process, PipelineCache.clear, runStage, h, hg, he, hl, hne,
      Ne.symm hne]

/-- C1 witness: concrete warm run followed by a retouch-only change. The
base and exposure stages reuse their caches while retouch and lab run. -/
theorem C1_stage_cache_witness :
    (PipelineCache.mk none none none none none).source_hash ≠ some 9 ∧
    (process ⟨Nat.succ, Nat.succ, Nat.succ, Nat.succ, Nat.succ, Nat.succ⟩
        (process ⟨Nat.succ, Nat.succ, Nat.succ, Nat.succ, Nat.succ, Nat.succ⟩
          ⟨none, none, none, none, none⟩ 0 ⟨1, 2, 3, 4, 5⟩ 9).2.1
        0 ⟨1, 2, 30, 4, 5⟩ 9).2.2 = (false, false, true, true) :=
  ⟨by simp,
   (C1_stage_cache ⟨Nat.succ, Nat.succ, Nat.succ, Nat.succ, Nat.succ, Nat.succ⟩).2.2.2.2
     ⟨none, none, none, none, none⟩ 0 0 ⟨1, 2, 3, 4, 5⟩ ⟨1, 2, 30, 4, 5⟩ 9
     (by simp) rfl rfl rfl (by simp)⟩

/-!
Batch analysis robust mean, get_robust_mean from
negpy/desktop/workers/render.py. Per-file estimates are exact rationals;
np.percentile uses its default linear interpolation on the sorted data.
-/

/-- Arithmetic mean of a list, np.mean. -/
def mean (xs : List ℚ) : ℚ := xs.sum / xs.length

/-- Fractional rank position of np.percentile: q / 100 * (len - 1). -/
def percentilePos (len : ℕ) (q : ℚ) : ℚ := q / 100 * ((len : ℚ) - 1)

/-- Lower interpolation index: the floor of the rank position. -/
def percentileIdx (len : ℕ) (q : ℚ) : ℕ := (⌊percentilePos len q⌋).toNat

/-- Linear interpolation of np.percentile on already sorted data:
a[i] + (pos - i) * (a[j] - a[i]) with j the next index clamped to the
last one. -/
def percentileSorted (a : List ℚ) (q : ℚ) : ℚ :=
  let i := percentileIdx a.length q
  let j := min (i + 1) (a.length - 1)
  a.getD i 0 + (percentilePos a.length q - (i : ℚ)) * (a.getD j 0 - a.getD i 0)

/-- Function np.percentile: sort, then interpolate linearly. -/
def percentile (xs : List ℚ) (q : ℚ) : ℚ :=
  percentileSorted (xs.insertionSort (· ≤ ·)) q

/-- One channel of get_robust_mean: below five samples the plain mean;
otherwise the mean of the values inside the closed 10th to 90th percentile
band when that selection is nonempty, with the plain mean as fallback. -/
def robustMeanChannel (chData : List ℚ) : ℚ :=
  if chData.length < 5 then mean chData
  else if 0 < (chData.filter fun x =>
      decide (percentile chData 10 ≤ x ∧ x ≤ percentile chData 90)).length then
    mean (chData.filter fun x =>
      decide (percentile chData 10 ≤ x ∧ x ≤ percentile chData 90))
  else mean chData

/-- Function get_robust_mean applied to the three channels of a list of
per-file triples. -/
def get_robust_mean (data : List (ℚ × ℚ × ℚ)) : ℚ × ℚ × ℚ :=
  (robustMeanChannel (data.map (·.1)),
   robustMeanChannel (data.map (·.2.1)),
   robustMeanChannel (data.map (·.2.2)))

theorem percentileIdx_cast {len : ℕ} {q : ℚ} (h : 0 ≤ percentilePos len q) :
    ((percentileIdx len q : ℕ) : ℚ) ≤ percentilePos len q ∧
    percentilePos len q < ((percentileIdx len q : ℕ) : ℚ) + 1 := by
  have h0 : (0 : ℤ) ≤ ⌊percentilePos len q⌋ := Int.floor_nonneg.2 h
  have hc : ((percentileIdx len q : ℕ) : ℚ) = ((⌊percentilePos len q⌋ : ℤ) : ℚ) := by
    unfold percentileIdx
    exact_mod_cast congrArg (fun z : ℤ => (z : ℚ)) (Int.toNat_of_nonneg h0)
  constructor
  · rw [hc]; exact Int.floor_le _
  · rw [hc]; exact Int.lt_floor_add_one _

theorem percentileSorted_le_get (s : List ℚ) (hs : s.Sorted (· ≤ ·))
    (h5 : 5 ≤ s.length) :
    ∃ k : Fin s.length,
      percentileSorted s 10 ≤ s.get k ∧ s.get k ≤ percentileSorted s 90 := by
  have hnq : (5 : ℚ) ≤ (s.length : ℚ) := by exact_mod_cast h5
  have hposL0 : 0 ≤ percentilePos s.length 10 := by
    unfold percentilePos; nlinarith
  have hposH0 : 0 ≤ percentilePos s.length 90 := by
    unfold percentilePos; nlinarith
  obtain ⟨hL1, hL2⟩ := percentileIdx_cast hposL0
  obtain ⟨hH1, hH2⟩ := percentileIdx_cast hposH0
  have hposL_le : percentilePos s.length 10 ≤ (s.length : ℚ) - 2 := by
    unfold percentilePos; nlinarith
  have hposH_le : percentilePos s.length 90 ≤ (s.length : ℚ) - 1 := by
    unfold percentilePos; nlinarith
  have hiLn : percentileIdx s.length 10 + 1 ≤ s.length - 1 := by
    have hq : ((percentileIdx s.length 10 : ℕ) : ℚ) + 2 ≤ (s.length : ℚ) := by
      linarith
    have hn : percentileIdx s.length 10 + 2 ≤ s.length := by exact_mod_cast hq
    omega
  have hiHn : percentileIdx s.length 90 ≤ s.length - 1 := by
    have hq : ((percentileIdx s.length 90 : ℕ) : ℚ) + 1 ≤ (s.length : ℚ) := by
      linarith
    have hn : percentileIdx s.length 90 + 1 ≤ s.length := by exact_mod_cast hq
    omega
  have hstep : percentileIdx s.length 10 + 1 ≤ percentileIdx s.length 90 := by
    have hz : (((percentileIdx s.length 10 + 1 : ℕ) : ℤ)) ≤
        ⌊percentilePos s.length 90⌋ := by
      apply Int.le_floor.2
      push_cast
      have : percentilePos s.length 10 + 1 ≤ percentilePos s.length 90 := by
        unfold percentilePos; nlinarith
      linarith
    have htn := Int.toNat_le_toNat hz
    rw [Int.toNat_natCast] at htn
    have hgoal : percentileIdx s.length 90 = ⌊percentilePos s.length 90⌋.toNat := rfl
    rw [hgoal]
    exact htn
  have hlt_iL : percentileIdx s.length 10 < s.length := by omega
  have hlt_iL1 : percentileIdx s.length 10 + 1 < s.length := by omega
  have hlt_iH : percentileIdx s.length 90 < s.length := by omega
  have hlt_jH : min (percentileIdx s.length 90 + 1) (s.length - 1) < s.length := by
    omega
  refine ⟨⟨percentileIdx s.length 10 + 1, hlt_iL1⟩, ?_, ?_⟩
  · have hmono : s.get ⟨percentileIdx s.length 10, hlt_iL⟩ ≤
        s.get ⟨percentileIdx s.length 10 + 1, hlt_iL1⟩ :=
      hs.rel_get_of_le (by simp [Fin.le_def])
    simp only [percentileSorted]
    rw [min_eq_left hiLn, List.getD_eq_get s 0 hlt_iL, List.getD_eq_get s 0 hlt_iL1]
    nlinarith [hmono, hL1, hL2]
  · have hmonoH : s.get ⟨percentileIdx s.length 90, hlt_iH⟩ ≤
        s.get ⟨min (percentileIdx s.length 90 + 1) (s.length - 1), hlt_jH⟩ :=
      hs.rel_get_of_le (by simp [Fin.le_def]; omega)
    have hmid : s.get ⟨percentileIdx s.length 10 + 1, hlt_iL1⟩ ≤
        s.get ⟨percentileIdx s.length 90, hlt_iH⟩ :=
      hs.rel_get_of_le (by simp [Fin.le_def]; omega)
    simp only [percentileSorted]
    rw [List.getD_eq_get s 0 hlt_iH, List.getD_eq_get s 0 hlt_jH]
    nlinarith [hmonoH, hmid, hH1, hH2]

theorem robust_filter_nonempty (xs : List ℚ) (h5 : 5 ≤ xs.length) :
    0 < (xs.filter fun x =>
      decide (percentile xs 10 ≤ x ∧ x ≤ percentile xs 90)).length := by
  have hperm := List.perm_insertionSort (· ≤ ·) xs
  have hs := List.sorted_insertionSort (· ≤ ·) xs
  have hlen : (xs.insertionSort (· ≤ ·)).length = xs.length := hperm.length_eq
  obtain ⟨k, h1, h2⟩ :=
    percentileSorted_le_get (xs.insertionSort (· ≤ ·)) hs (by omega)
  have hmem : (xs.insertionSort (· ≤ ·)).get k ∈ xs :=
    hperm.mem_iff.1 (List.get_mem _ _ _)
  have hin : (xs.insertionSort (· ≤ ·)).get k ∈ xs.filter fun x =>
      decide (percentile xs 10 ≤ x ∧ x ≤ percentile xs 90) := by
    refine List.mem_filter.2 ⟨hmem, ?_⟩
    simp only [decide_eq_true_eq]
    exact ⟨h1, h2⟩
  exact List.length_pos.2 (List.ne_nil_of_mem hin)

/-- C6: the robust mean of a channel is, for five or more samples, the mean
of exactly the samples lying in the closed band from the 10th to the 90th
percentile of that channel, and for fewer than five samples the plain mean. -/
theorem C6_robust_trimmed_mean (xs : List ℚ) :
    (xs.length < 5 → robustMeanChannel xs = mean xs) ∧
    (5 ≤ xs.length → robustMeanChannel xs =
      mean (xs.filter fun x =>
        decide (percentile xs 10 ≤ x ∧ x ≤ percentile xs 90))) := by
  constructor
  · intro h
    unfold robustMeanChannel
    rw [if_pos h]
  · intro h
    unfold robustMeanChannel
    rw [if_neg (by omega), if_pos (robust_filter_nonempty xs h)]

/-- C6 witness: seven per-file floor estimates with two outliers; the
trimmed mean keeps exactly the in-band values. -/
theorem C6_robust_trimmed_mean_witness :
    5 ≤ ([0, 1, 1, 1, 1, 1, 10] : List ℚ).length ∧
    robustMeanChannel [0, 1, 1, 1, 1, 1, 10] =
      mean (([0, 1, 1, 1, 1, 1, 10] : List ℚ).filter fun x =>
        decide (percentile [0, 1, 1, 1, 1, 1, 10] 10 ≤ x ∧
          x ≤ percentile [0, 1, 1, 1, 1, 1, 10] 90)) :=
  ⟨by simp, (C6_robust_trimmed_mean [0, 1, 1, 1, 1, 1, 10]).2 (by simp)⟩

end NegPy
